import Mathlib

/-! # carbon request/reply utilities and exponential smoothing

A shallow embedding of `mcrouter/lib/carbon/RequestReplyUtil.h`
(`getTypeIdByName`, `detail::RequestListLimitsImpl`, `RequestIdMap`, and the
capability adapters `setMessageIfPresent`, `valuePtrUnsafe`, `valueRangeSlow`,
`getFlags`) and of the `ExponentialSmoothData` statistic exercised by
`mcrouter/test/cpp_unit_tests/exponential_smooth_data_test.cpp`.

`size_t` is a 64-bit unsigned integer: values are natural numbers below
`2 ^ 64` and arithmetic is reduced modulo `2 ^ 64`.
-/

namespace carbon

/-! ## `size_t` arithmetic -/

/-- Number of values of `size_t` (64-bit). -/
def sizeModulus : Nat := 2 ^ 64

/-- The constant `std::numeric_limits<size_t>::max()`. -/
def sizeMax : Nat := sizeModulus - 1

/-- The constant `std::numeric_limits<size_t>::min()`. -/
def sizeMin : Nat := 0

/-- Unsigned `size_t` subtraction `a - b`, wrapping modulo `2 ^ 64`. -/
def subSize (a b : Nat) : Nat := (a + sizeModulus - b % sizeModulus) % sizeModulus

/-- Unsigned `size_t` addition `a + b`, wrapping modulo `2 ^ 64`. -/
def addSize (a b : Nat) : Nat := (a + b) % sizeModulus

/-! ## Type lists -/

/-- A member `T` of a carbon `List<...>`: the static members `T::name` and
`T::typeId`, the latter a `size_t`. -/
structure RequestType where
  name : String
  typeId : Nat
  typeId_lt : typeId < sizeModulus

/-- A carbon type list `List<T, Ts...>`, in declaration order. -/
abbrev TypeList := List RequestType

/-- The function `getTypeIdByName(name, List<T, Ts...>)`: `List<>` gives `0`,
otherwise `name == T::name ? T::typeId : getTypeIdByName(name, List<Ts...>())`. -/
def getTypeIdByName (name : String) : TypeList → Nat
  | [] => 0
  | T :: Ts => if name = T.name then T.typeId else getTypeIdByName name Ts

/-- The member `RequestListLimitsImpl<List>::minTypeId`. -/
def minTypeId : TypeList → Nat
  | [] => sizeMax
  | T :: Ts => if T.typeId ≤ minTypeId Ts then T.typeId else minTypeId Ts

/-- The member `RequestListLimitsImpl<List>::maxTypeId`. -/
def maxTypeId : TypeList → Nat
  | [] => sizeMin
  | T :: Ts => if T.typeId ≥ maxTypeId Ts then T.typeId else maxTypeId Ts

/-- The member `RequestListLimitsImpl<List>::typeIdRangeSize`:
`0` for `List<>`, `maxTypeId - minTypeId + 1` in `size_t` otherwise. -/
def typeIdRangeSize : TypeList → Nat
  | [] => 0
  | T :: Ts => addSize (subSize (maxTypeId (T :: Ts)) (minTypeId (T :: Ts))) 1

/-- The declared identifiers of a type list, in list order. -/
def typeIds (l : TypeList) : List Nat := l.map RequestType.typeId

/-! ## `RequestIdMap` -/

/-- The constant `RequestIdMap::kMinId`. -/
def kMinId (l : TypeList) : Nat := minTypeId l

/-- The constant `RequestIdMap::kMaxId`. -/
def kMaxId (l : TypeList) : Nat := maxTypeId l

/-- The constant `RequestIdMap::kSize`. -/
def kSize (l : TypeList) : Nat := typeIdRangeSize l

/-- Ways in which an operation of `RequestIdMap` does not return normally. -/
inductive Fault where
  /-- The `std::logic_error` thrown by `checkLogic`, carrying the arguments of
  the format string `"Id {} is out of range [{}, {}]"`. -/
  | outOfRange (id kMin kMax : Nat)
  /-- An element access `container_[i]` with `i` not below the length of the
  `std::array`: undefined behaviour in C++. -/
  | arrayOutOfBounds (index size : Nat)
  deriving DecidableEq, Repr

/-- Modelled from the spec: `facebook::memcache::checkLogic` of
`mcrouter/lib/fbi/cpp/util.h`, which is not part of the sources at hand. It
does nothing when the condition holds and otherwise fails with a logic error
that reports the id and the valid `[min, max]` interval. -/
def checkLogic (cond : Bool) (id kMin kMax : Nat) : Except Fault Unit :=
  if cond then .ok () else .error (.outOfRange id kMin kMax)

/-- The class `RequestIdMap<RequestList, T>`: the member
`std::array<T, kSize> container_`, an array of exactly `kSize` elements. -/
structure RequestIdMap (l : TypeList) (T : Type) where
  container_ : List T
  size_eq : container_.length = kSize l

/-- Element read `container_[i]` on the `std::array`. -/
def RequestIdMap.elemAt {l : TypeList} {T : Type} (m : RequestIdMap l T) (i : Nat) :
    Except Fault T :=
  match m.container_[i]? with
  | some v => .ok v
  | none => .error (.arrayOutOfBounds i (kSize l))

/-- The method `RequestIdMap::getById`. -/
def RequestIdMap.getById {l : TypeList} {T : Type} (m : RequestIdMap l T) (id : Nat) :
    Except Fault T := do
  checkLogic (decide (kMinId l ≤ id) && decide (id ≤ kMaxId l)) id (kMinId l) (kMaxId l)
  m.elemAt (subSize id (kMinId l))

/-- The method `RequestIdMap::set`, returning the map after the assignment
`container_[id - kMinId] = std::move(val)`. -/
def RequestIdMap.set {l : TypeList} {T : Type} (m : RequestIdMap l T) (id : Nat) (val : T) :
    Except Fault (RequestIdMap l T) := do
  checkLogic (decide (kMinId l ≤ id) && decide (id ≤ kMaxId l)) id (kMinId l) (kMaxId l)
  if subSize id (kMinId l) < m.container_.length then
    .ok ⟨m.container_.set (subSize id (kMinId l)) val, by
      rw [List.length_set]; exact m.size_eq⟩
  else
    .error (.arrayOutOfBounds (subSize id (kMinId l)) (kSize l))

/-- A value-initialised `RequestIdMap` (`RequestIdMap<RequestList, T> m{}`): every
slot holds `T()`. The class declares no constructor, so a default-initialised
map of a scalar `T` has indeterminate slots; the theorems quantify over every
map and use this one as a sample only. -/
def RequestIdMap.init (l : TypeList) (T : Type) [Inhabited T] : RequestIdMap l T :=
  ⟨List.replicate (kSize l) default, by simp⟩

/-- Whether a result is the out-of-range logic error of `checkLogic`. -/
def reportsOutOfRange {α : Type} (r : Except Fault α) : Prop :=
  ∃ id kMin kMax, r = .error (.outOfRange id kMin kMax)

/-- Number of distinct identifiers declared in a type list. -/
def distinctTypeIds (l : TypeList) : Nat := (typeIds l).dedup.length

/-! ### Sample type lists -/

/-- A type list with sparse identifiers: `List<McGet, McSet, McDelete>` with
identifiers 3, 1 and 7. -/
def sampleList : TypeList :=
  [⟨"McGet", 3, by decide⟩, ⟨"McSet", 1, by decide⟩, ⟨"McDelete", 7, by decide⟩]

/-- A type list whose identifiers span all of `size_t`: `List<A, B>` with
`A::typeId = 0` and `B::typeId = 18446744073709551615`. -/
def fullSpanList : TypeList :=
  [⟨"A", 0, by decide⟩, ⟨"B", 18446744073709551615, by decide⟩]

/-- The member `A` of `fullSpanList`, with `A::typeId = 0`. -/
def fullSpanA : RequestType := ⟨"A", 0, by decide⟩

/-- A type list in which two members carry the same name. -/
def duplicateNameList : TypeList :=
  [⟨"McGet", 3, by decide⟩, ⟨"McSet", 1, by decide⟩, ⟨"McGet", 9, by decide⟩]

/-- The method `RequestIdMap::getByRequestType<Request>()`. The
`static_assert(ListContains<RequestList, Request>::value, ...)` is the
argument `h`: a call with a type outside the list does not build. The body is
`container_[Request::typeId - kMinId]`, without a call of `checkLogic`. -/
def RequestIdMap.getByRequestType {l : TypeList} {T : Type} (m : RequestIdMap l T)
    (Request : RequestType) (_h : Request ∈ l) : Except Fault T :=
  m.elemAt (subSize Request.typeId (kMinId l))

/-- The method `RequestIdMap::set` as a transformer of the object: the outcome
of the call together with the object after the call. When `checkLogic` throws,
control leaves the method before the assignment, so the object is the one the
call started with. After an out-of-bounds element access the behaviour is
undefined: the object component is then left as it was and carries no meaning. -/
def RequestIdMap.setInPlace {l : TypeList} {T : Type} (m : RequestIdMap l T) (id : Nat)
    (val : T) : Except Fault Unit × RequestIdMap l T :=
  match checkLogic (decide (kMinId l ≤ id) && decide (id ≤ kMaxId l)) id (kMinId l) (kMaxId l) with
  | .error e => (.error e, m)
  | .ok () =>
    if subSize id (kMinId l) < m.container_.length then
      (.ok (), ⟨m.container_.set (subSize id (kMinId l)) val, by
        rw [List.length_set]; exact m.size_eq⟩)
    else
      (.error (.arrayOutOfBounds (subSize id (kMinId l)) (kSize l)), m)

/-! ## Capability adapters -/

/-- Modelled from the spec: `folly::IOBuf`, a chain of buffers, each holding a
run of bytes; the payload is the concatenation of the runs. -/
structure IOBuf where
  chain : List (List UInt8)
  deriving DecidableEq, Repr

/-- A `folly::StringPiece` over bytes; `folly::StringPiece()` is the empty range. -/
abbrev StringPiece := List UInt8

/-- Modelled from the spec: `folly::IOBuf::coalesce()`, which makes the chain
one contiguous buffer ("coalescing a fragmented buffer into a contiguous byte
range") and returns that range, together with the buffer after the call. -/
def IOBuf.coalesce (buf : IOBuf) : StringPiece × IOBuf :=
  (buf.chain.flatten, ⟨[buf.chain.flatten]⟩)

/-- How a message type `R` declares its payload: not at all (`R::hasValue` is
false), as `folly::IOBuf& value()`, or as `folly::Optional<folly::IOBuf>&
value()`. -/
inductive ValueKind where
  | absent
  | plain
  | optional
  deriving DecidableEq, Repr

/-- The static member `R::hasValue`. -/
def ValueKind.hasValue : ValueKind → Bool
  | .absent => false
  | .plain => true
  | .optional => true

/-- The type of the payload member of a message, by the way it is declared. -/
def ValueField : ValueKind → Type
  | .absent => Unit
  | .plain => IOBuf
  | .optional => Option IOBuf

/-- The type of a member that a message type declares or not. -/
def FieldOf (α : Type) : Bool → Type
  | true => α
  | false => Unit

/-- Modelled from the spec: a value of a carbon message type `R`, whose
declaration is generated code outside the sources at hand. "Each message type
may or may not declare: a binary payload accessor, a flags accessor (unsigned
64-bit), a free-text message field." The parameters are the static facts about
`R`: the payload declaration, `R::hasFlags`, and whether `R` has a member
`std::string& message()` (`detail::HasMessage<R>::value`); `Other` is the type
of the remaining fields. -/
structure Message (vk : ValueKind) (hasFlags hasMessage : Bool) (Other : Type) where
  value_ : ValueField vk
  flags_ : FieldOf Nat hasFlags
  message_ : FieldOf String hasMessage
  other : Other

/-- The accessor `flags()` of a message type that declares it. -/
def Message.flags {vk : ValueKind} {hasMessage : Bool} {Other : Type}
    (r : Message vk true hasMessage Other) : Nat :=
  r.flags_

/-- The accessor `message()` of a message type that declares it. -/
def Message.message {vk : ValueKind} {hasFlags : Bool} {Other : Type}
    (r : Message vk hasFlags true Other) : String :=
  r.message_

/-- The two overloads of `setMessageIfPresent(Reply& reply, std::string msg)`,
selected by `detail::HasMessage<Reply>::value`: `reply.message() =
std::move(msg)` when it is true, an empty body when it is false. The result is
the reply after the call. -/
def setMessageIfPresent {vk : ValueKind} {hasFlags : Bool} {Other : Type} :
    {hasMessage : Bool} → Message vk hasFlags hasMessage Other → String →
    Message vk hasFlags hasMessage Other
  | true, reply, msg => { reply with message_ := msg }
  | false, reply, _ => reply

/-- The overload `detail::bufPtr(folly::IOBuf& buf)`, which returns `&buf`. A
pointer is `some` of what it points to, the null pointer is `none`. -/
def detail.bufPtr (buf : IOBuf) : Option IOBuf := some buf

/-- The overload `detail::bufPtr(folly::Optional<folly::IOBuf>& buf)`, which
returns `buf.get_pointer()`: the null pointer when the optional is unset. -/
def detail.bufPtrOptional (buf : Option IOBuf) : Option IOBuf := buf

/-- The overloads of `valuePtrUnsafe`, selected by `R::hasValue`:
`detail::bufPtr(requestOrReply.value())` when it is true, `nullptr` when it is
false. -/
def valuePtrUnsafe {hasFlags hasMessage : Bool} {Other : Type} :
    {vk : ValueKind} → Message vk hasFlags hasMessage Other → Option IOBuf
  | .absent, _ => none
  | .plain, requestOrReply => detail.bufPtr requestOrReply.value_
  | .optional, requestOrReply => detail.bufPtrOptional requestOrReply.value_

/-- The overloads of `valueRangeSlow`, selected by `R::hasValue`: when it is
true, `buf ? folly::StringPiece(buf->coalesce()) : folly::StringPiece()` with
`buf = detail::bufPtr(requestOrReply.value())`; when it is false,
`folly::StringPiece()`. The result is the range together with the message
after the call, whose payload `coalesce` has made contiguous. -/
def valueRangeSlow {hasFlags hasMessage : Bool} {Other : Type} :
    {vk : ValueKind} → Message vk hasFlags hasMessage Other →
    StringPiece × Message vk hasFlags hasMessage Other
  | .absent, requestOrReply => ([], requestOrReply)
  | .plain, requestOrReply =>
    match detail.bufPtr requestOrReply.value_ with
    | some buf => ((buf.coalesce).1, { requestOrReply with value_ := (buf.coalesce).2 })
    | none => ([], requestOrReply)
  | .optional, requestOrReply =>
    match detail.bufPtrOptional requestOrReply.value_ with
    | some buf => ((buf.coalesce).1, { requestOrReply with value_ := some (buf.coalesce).2 })
    | none => ([], requestOrReply)

/-- The overloads of `getFlags`, selected by `R::hasFlags`:
`requestOrReply.flags()` when it is true, `0` when it is false. -/
def getFlags {vk : ValueKind} {hasMessage : Bool} {Other : Type} :
    {hasFlags : Bool} → Message vk hasFlags hasMessage Other → Nat
  | true, requestOrReply => requestOrReply.flags
  | false, _ => 0

/-! ### Sample messages -/

/-- A reply with payload, flags and message field, and a result code as its
remaining field. -/
def sampleReply : Message .plain true true Nat :=
  { value_ := ⟨[[1, 2], [3]]⟩, flags_ := (5 : Nat), message_ := "old", other := 42 }

/-- A request with an optional payload that is unset, and no flags or message. -/
def sampleUnsetRequest : Message .optional false false String :=
  { value_ := none, flags_ := (), message_ := (), other := "key" }

/-- A request without payload, flags or message. -/
def sampleBareRequest : Message .absent false false String :=
  { value_ := (), flags_ := (), message_ := (), other := "key" }

end carbon

namespace mcrouter

/-! ## `ExponentialSmoothData` -/

/-- Modelled from the spec: the class template `ExponentialSmoothData<N>` of
`mcrouter/ExponentialSmoothData.h`, which is not part of the sources at hand
(only its unit test is). The state is the flag "has received at least one
sample" and the current estimate. The estimate is held as a rational number:
`insertSample` computes it over exact arithmetic, `insertSampleDouble` rounds
every operation to a `double` as the program does. -/
structure ExponentialSmoothData (N : Nat) where
  hasValue_ : Bool
  currentValue_ : ℚ
  deriving DecidableEq

/-- Modelled from the spec: a newly created `ExponentialSmoothData<N>`, which is
uninitialized (no value). -/
def ExponentialSmoothData.fresh (N : Nat) : ExponentialSmoothData N :=
  ⟨false, 0⟩

/-- Modelled from the spec: the decay coefficient `α = 2 / (N + 1)` derived from
the window size `N`. -/
def ExponentialSmoothData.alpha (N : Nat) : ℚ := 2 / ((N : ℚ) + 1)

/-- Modelled from the spec: `hasValue()`, true iff at least one sample has been
inserted. -/
def ExponentialSmoothData.hasValue {N : Nat} (d : ExponentialSmoothData N) : Bool :=
  d.hasValue_

/-- Modelled from the spec: `value()`, which returns 0.0 while uninitialized and
the current estimate once initialized. -/
def ExponentialSmoothData.value {N : Nat} (d : ExponentialSmoothData N) : ℚ :=
  if d.hasValue_ then d.currentValue_ else 0

/-- Modelled from the spec: `insertSample(x)`. If uninitialized, the estimate
becomes `x` and the state becomes initialized; else the estimate becomes
`α·x + (1 − α)·estimate`. -/
def ExponentialSmoothData.insertSample {N : Nat} (d : ExponentialSmoothData N) (x : ℚ) :
    ExponentialSmoothData N :=
  if d.hasValue_ then
    ⟨true, ExponentialSmoothData.alpha N * x + (1 - ExponentialSmoothData.alpha N) * d.currentValue_⟩
  else
    ⟨true, x⟩

/-- A sequence of `insertSample` calls, applied from left to right. -/
def ExponentialSmoothData.insertSamples {N : Nat} (d : ExponentialSmoothData N) (xs : List ℚ) :
    ExponentialSmoothData N :=
  xs.foldl ExponentialSmoothData.insertSample d

/-! ### The same class in `double` arithmetic -/

/-- Nearest integer to `a / b` for `b > 0`, a tie going to the even integer. -/
def roundHalfEven (a : Int) (b : Nat) : Int :=
  let f := a / (b : Int)
  let r := a % (b : Int)
  if 2 * r < (b : Int) then f
  else if (b : Int) < 2 * r then f + 1
  else if f % 2 = 0 then f else f + 1

/-- Number of binary digits of `n`, by at most `fuel` halvings. -/
def bitLengthAux : Nat → Nat → Nat
  | 0, _ => 0
  | fuel + 1, n => if n = 0 then 0 else bitLengthAux fuel (n / 2) + 1

/-- Number of binary digits of `n` (0 for 0): `n` halvings always reach 0. -/
def bitLength (n : Nat) : Nat := bitLengthAux n n

/-- The integer `e` with `2^e ≤ n / d < 2^(e+1)`, for positive `n` and `d`. -/
def floorLog2 (n d : Nat) : Int :=
  let c : Int := (bitLength n : Int) - (bitLength d : Int)
  if 0 ≤ c then (if d * 2 ^ c.toNat ≤ n then c else c - 1)
  else (if d ≤ n * 2 ^ (-c).toNat then c else c - 1)

/-- Modelled from the spec: the rounding that every operation on the `double`
estimate performs. The result is the IEEE 754 binary64 value nearest to `q`,
a tie going to the even significand: 53 significant binary digits, the unit
in the last place never below `2^(-1074)`. Values beyond the largest finite
`double` are outside the model (IEEE arithmetic gives an infinity there). -/
def roundDouble (q : ℚ) : ℚ :=
  if q.num = 0 then 0
  else
    let p : Int := max (floorLog2 q.num.natAbs q.den - 52) (-1074)
    if 0 ≤ p then
      ((roundHalfEven q.num (q.den * 2 ^ p.toNat) * ((2 ^ p.toNat : Nat) : Int) : Int) : ℚ)
    else
      mkRat (roundHalfEven (q.num * ((2 ^ (-p).toNat : Nat) : Int)) q.den) (2 ^ (-p).toNat)

/-- The estimate `v_k`: `value()` after `insertSample(s0)` on a fresh object
followed by `k` insertions of the constant `c`. -/
def ExponentialSmoothData.valueAfterConstant (N : Nat) (s0 c : ℚ) (k : Nat) : ℚ :=
  (((ExponentialSmoothData.fresh N).insertSample s0).insertSamples (List.replicate k c)).value

end mcrouter

namespace carbon

/-! ## Supporting lemmas: `size_t` arithmetic and the limits of a type list -/

theorem sizeModulus_pos : 0 < sizeModulus := by
  unfold sizeModulus; positivity

theorem subSize_of_le {a b : Nat} (hba : b ≤ a) (ha : a < sizeModulus) :
    subSize a b = a - b := by
  unfold subSize
  have hb : b < sizeModulus := lt_of_le_of_lt hba ha
  rw [Nat.mod_eq_of_lt hb]
  have h1 : a + sizeModulus - b = (a - b) + sizeModulus := by omega
  rw [h1, Nat.add_mod_right]
  exact Nat.mod_eq_of_lt (by omega)

theorem addSize_of_lt {a b : Nat} (h : a + b < sizeModulus) : addSize a b = a + b := by
  unfold addSize
  exact Nat.mod_eq_of_lt h

theorem minTypeId_le_sizeMax (l : TypeList) : minTypeId l ≤ sizeMax := by
  induction l with
  | nil => simp [minTypeId]
  | cons T Ts ih =>
    simp only [minTypeId]
    split
    · have := T.typeId_lt
      unfold sizeMax; omega
    · exact ih

theorem maxTypeId_lt_sizeModulus (l : TypeList) : maxTypeId l < sizeModulus := by
  induction l with
  | nil => simpa [maxTypeId, sizeMin] using sizeModulus_pos
  | cons T Ts ih =>
    simp only [maxTypeId]
    split
    · exact T.typeId_lt
    · exact ih

theorem minTypeId_le_of_mem {l : TypeList} {t : RequestType} (h : t ∈ l) :
    minTypeId l ≤ t.typeId := by
  induction l with
  | nil => cases h
  | cons T Ts ih =>
    simp only [minTypeId]
    rcases List.mem_cons.mp h with rfl | h
    · split <;> omega
    · have := ih h
      split <;> omega

theorem le_maxTypeId_of_mem {l : TypeList} {t : RequestType} (h : t ∈ l) :
    t.typeId ≤ maxTypeId l := by
  induction l with
  | nil => cases h
  | cons T Ts ih =>
    simp only [maxTypeId]
    rcases List.mem_cons.mp h with rfl | h
    · split <;> omega
    · have := ih h
      split <;> omega

theorem minTypeId_mem {l : TypeList} (h : l ≠ []) : minTypeId l ∈ typeIds l := by
  induction l with
  | nil => exact absurd rfl h
  | cons T Ts ih =>
    simp only [minTypeId, typeIds, List.map_cons, List.mem_cons]
    split
    · exact Or.inl rfl
    · rename_i hlt
      right
      cases Ts with
      | nil =>
        exfalso
        apply hlt
        have := T.typeId_lt
        simp only [minTypeId, sizeMax]
        omega
      | cons U Us => exact ih (List.cons_ne_nil U Us)

theorem maxTypeId_mem {l : TypeList} (h : l ≠ []) : maxTypeId l ∈ typeIds l := by
  induction l with
  | nil => exact absurd rfl h
  | cons T Ts ih =>
    simp only [maxTypeId, typeIds, List.map_cons, List.mem_cons]
    split
    · exact Or.inl rfl
    · rename_i hlt
      right
      cases Ts with
      | nil =>
        exfalso
        apply hlt
        simp [maxTypeId, sizeMin]
      | cons U Us => exact ih (List.cons_ne_nil U Us)

theorem minTypeId_le_maxTypeId {l : TypeList} (h : l ≠ []) : minTypeId l ≤ maxTypeId l := by
  obtain ⟨t, ht, hmin⟩ := List.mem_map.mp (minTypeId_mem h)
  have := le_maxTypeId_of_mem ht
  omega

/-- Without wrap-around, the range size of a non-empty list is `max - min + 1`
as a natural number. -/
theorem typeIdRangeSize_of_no_wrap {l : TypeList} (h : l ≠ [])
    (hfit : maxTypeId l - minTypeId l + 1 < sizeModulus) :
    typeIdRangeSize l = maxTypeId l - minTypeId l + 1 := by
  cases l with
  | nil => exact absurd rfl h
  | cons T Ts =>
    simp only [typeIdRangeSize]
    rw [subSize_of_le (minTypeId_le_maxTypeId h) (maxTypeId_lt_sizeModulus _)]
    exact addSize_of_lt hfit

/-- No identifier passes the bounds check of the empty list. -/
theorem no_id_in_range_nil (id : Nat) : ¬ (kMinId [] ≤ id ∧ id ≤ kMaxId []) := by
  simp only [kMinId, kMaxId, minTypeId, maxTypeId, sizeMax, sizeMin, sizeModulus]
  omega

theorem checkLogic_true (id a b : Nat) : checkLogic true id a b = .ok () := rfl

theorem checkLogic_false (id a b : Nat) :
    checkLogic false id a b = .error (.outOfRange id a b) := rfl

/-- The bounds check of `getById`, as a case split on its condition. -/
theorem getById_eq {l : TypeList} {T : Type} (m : RequestIdMap l T) (id : Nat) :
    m.getById id =
      if kMinId l ≤ id ∧ id ≤ kMaxId l then m.elemAt (subSize id (kMinId l))
      else .error (.outOfRange id (kMinId l) (kMaxId l)) := by
  unfold RequestIdMap.getById
  by_cases h : kMinId l ≤ id ∧ id ≤ kMaxId l
  · have hc : (decide (kMinId l ≤ id) && decide (id ≤ kMaxId l)) = true := by
      simp [h.1, h.2]
    rw [hc, if_pos h]; rfl
  · have hc : (decide (kMinId l ≤ id) && decide (id ≤ kMaxId l)) = false := by
      rw [Bool.and_eq_false_iff]
      simp only [decide_eq_false_iff_not]
      tauto
    rw [hc, if_neg h]; rfl

/-- The bounds check of `set`, as a case split on its condition. -/
theorem set_eq {l : TypeList} {T : Type} (m : RequestIdMap l T) (id : Nat) (val : T) :
    m.set id val =
      if kMinId l ≤ id ∧ id ≤ kMaxId l then
        (if subSize id (kMinId l) < m.container_.length then
          .ok ⟨m.container_.set (subSize id (kMinId l)) val, by
            rw [List.length_set]; exact m.size_eq⟩
        else .error (.arrayOutOfBounds (subSize id (kMinId l)) (kSize l)))
      else .error (.outOfRange id (kMinId l) (kMaxId l)) := by
  unfold RequestIdMap.set
  by_cases h : kMinId l ≤ id ∧ id ≤ kMaxId l
  · have hc : (decide (kMinId l ≤ id) && decide (id ≤ kMaxId l)) = true := by
      simp [h.1, h.2]
    rw [hc, if_pos h]; rfl
  · have hc : (decide (kMinId l ≤ id) && decide (id ≤ kMaxId l)) = false := by
      rw [Bool.and_eq_false_iff]
      simp only [decide_eq_false_iff_not]
      tauto
    rw [hc, if_neg h]; rfl

/-- With a range size that does not wrap, the index of every id that passes
the bounds check is below `kSize`. -/
theorem index_lt_kSize_of_no_wrap {l : TypeList}
    (hfit : maxTypeId l - minTypeId l + 1 < sizeModulus) {id : Nat}
    (hlo : kMinId l ≤ id) (hhi : id ≤ kMaxId l) :
    subSize id (kMinId l) < kSize l := by
  have hne : l ≠ [] := by
    rintro rfl
    exact no_id_in_range_nil id ⟨hlo, hhi⟩
  unfold kMinId kMaxId at *
  have hmax := maxTypeId_lt_sizeModulus l
  rw [subSize_of_le hlo (by omega)]
  unfold kSize
  rw [typeIdRangeSize_of_no_wrap hne hfit]
  omega

/-- Round trip on every type list whose range size does not wrap: `set` on an
id that passes the bounds check succeeds, and `getById` on the result returns
the value stored. -/
theorem set_getById_of_no_wrap {l : TypeList} {T : Type} (m : RequestIdMap l T)
    (hfit : maxTypeId l - minTypeId l + 1 < sizeModulus) (id : Nat) (v : T)
    (hlo : kMinId l ≤ id) (hhi : id ≤ kMaxId l) :
    ∃ m2, m.set id v = .ok m2 ∧ m2.getById id = .ok v := by
  have hidx := index_lt_kSize_of_no_wrap hfit hlo hhi
  have hlen : subSize id (kMinId l) < m.container_.length := by
    rw [m.size_eq]; exact hidx
  refine ⟨⟨m.container_.set (subSize id (kMinId l)) v, by
    rw [List.length_set]; exact m.size_eq⟩, ?_, ?_⟩
  · rw [set_eq, if_pos ⟨hlo, hhi⟩, if_pos hlen]
  · rw [getById_eq, if_pos ⟨hlo, hhi⟩]
    unfold RequestIdMap.elemAt
    simp [hlen]

end carbon

namespace carbon

/-! ## `RequestIdMap`: round trip and bounds check -/

/-- C1, evaluated at the type list `List<A, B>` with `A::typeId = 0` and
`B::typeId = 2^64 - 1`: `kMinId` is 0, `kMaxId` is `2^64 - 1`, and `kSize`
wraps around to 0, so `container_` has no element. For every element type,
every map over this list and every value, `set(0, v)` passes the bounds check
`kMinId <= 0 <= kMaxId` and then indexes `container_[0]` past the end of the
array, and so does `getById(0)`: neither succeeds. -/
theorem set_fullSpanList_out_of_bounds :
    kMinId fullSpanList = 0 ∧ kMaxId fullSpanList = 18446744073709551615 ∧
    kSize fullSpanList = 0 ∧
    ∀ (T : Type) (m : RequestIdMap fullSpanList T) (v : T),
      m.set 0 v = .error (.arrayOutOfBounds 0 0) ∧
      m.getById 0 = .error (.arrayOutOfBounds 0 0) := by
  have hmin : kMinId fullSpanList = 0 := by decide
  have hmax : kMaxId fullSpanList = 18446744073709551615 := by
    simp [kMaxId, maxTypeId, fullSpanList, sizeMin]
  have hsize : kSize fullSpanList = 0 := by decide
  refine ⟨hmin, hmax, hsize, ?_⟩
  intro T m v
  have hlen : m.container_.length = 0 := by rw [m.size_eq, hsize]
  have hidx : subSize 0 (kMinId fullSpanList) = 0 := by decide
  have hin : kMinId fullSpanList ≤ 0 ∧ 0 ≤ kMaxId fullSpanList := ⟨by omega, by omega⟩
  have hnot : ¬ subSize 0 (kMinId fullSpanList) < m.container_.length := by omega
  constructor
  · rw [set_eq, if_pos hin, if_neg hnot, hidx, hsize]
  · have hnone : m.container_[0]? = none := by
      rw [List.getElem?_eq_none_iff]; omega
    rw [getById_eq, if_pos hin, hidx]
    unfold RequestIdMap.elemAt
    rw [hnone, hsize]

/-- C2: for every type list, every map over it, every id and every value,
`getById(id)` reports the out-of-range logic error if and only if
`id < kMinId` or `id > kMaxId`, and so does `set(id, v)`; in that case both
report the same error, carrying `id`, `kMinId` and `kMaxId`. -/
theorem getById_set_out_of_range_iff (l : TypeList) (T : Type) (m : RequestIdMap l T)
    (id : Nat) (v : T) :
    (reportsOutOfRange (m.getById id) ↔ (id < kMinId l ∨ kMaxId l < id)) ∧
    (reportsOutOfRange (m.set id v) ↔ (id < kMinId l ∨ kMaxId l < id)) ∧
    (m.getById id = .error (.outOfRange id (kMinId l) (kMaxId l)) ↔
      (id < kMinId l ∨ kMaxId l < id)) ∧
    (m.set id v = .error (.outOfRange id (kMinId l) (kMaxId l)) ↔
      (id < kMinId l ∨ kMaxId l < id)) := by
  by_cases h : kMinId l ≤ id ∧ id ≤ kMaxId l
  · have hout : ¬ (id < kMinId l ∨ kMaxId l < id) := by omega
    have hget : ∀ a b c, m.getById id ≠ .error (.outOfRange a b c) := by
      intro a b c
      rw [getById_eq, if_pos h]
      unfold RequestIdMap.elemAt
      cases m.container_[subSize id (kMinId l)]? <;> simp
    have hset : ∀ a b c, m.set id v ≠ .error (.outOfRange a b c) := by
      intro a b c
      rw [set_eq, if_pos h]
      split <;> simp
    refine ⟨⟨?_, fun h2 => absurd h2 hout⟩, ⟨?_, fun h2 => absurd h2 hout⟩,
      ⟨fun h2 => absurd h2 (hget _ _ _), fun h2 => absurd h2 hout⟩,
      ⟨fun h2 => absurd h2 (hset _ _ _), fun h2 => absurd h2 hout⟩⟩
    · rintro ⟨a, b, c, h2⟩
      exact absurd h2 (hget a b c)
    · rintro ⟨a, b, c, h2⟩
      exact absurd h2 (hset a b c)
  · have hout : id < kMinId l ∨ kMaxId l < id := by omega
    have hget : m.getById id = .error (.outOfRange id (kMinId l) (kMaxId l)) := by
      rw [getById_eq, if_neg h]
    have hset : m.set id v = .error (.outOfRange id (kMinId l) (kMaxId l)) := by
      rw [set_eq, if_neg h]
    exact ⟨⟨fun _ => hout, fun _ => ⟨_, _, _, hget⟩⟩, ⟨fun _ => hout, fun _ => ⟨_, _, _, hset⟩⟩,
      ⟨fun _ => hout, fun _ => hget⟩, ⟨fun _ => hout, fun _ => hset⟩⟩

/-! ## `RequestListLimits` -/

/-- C3: for every non-empty type list, `minTypeId` and `maxTypeId` are each the
`typeId` of some element of the list, and every declared `typeId` lies between
them; so `minTypeId` is the smallest declared `typeId` and `maxTypeId` the
largest. -/
theorem limits_are_extrema (l : TypeList) (h : l ≠ []) :
    (∃ t ∈ l, t.typeId = minTypeId l) ∧ (∃ t ∈ l, t.typeId = maxTypeId l) ∧
    ∀ t ∈ l, minTypeId l ≤ t.typeId ∧ t.typeId ≤ maxTypeId l := by
  refine ⟨?_, ?_, fun t ht => ⟨minTypeId_le_of_mem ht, le_maxTypeId_of_mem ht⟩⟩
  · obtain ⟨t, ht, e⟩ := List.mem_map.mp (minTypeId_mem h)
    exact ⟨t, ht, e⟩
  · obtain ⟨t, ht, e⟩ := List.mem_map.mp (maxTypeId_mem h)
    exact ⟨t, ht, e⟩

/-- Witness of C3 on `List<McGet, McSet, McDelete>` with identifiers 3, 1, 7. -/
theorem limits_are_extrema_witness :
    sampleList ≠ [] ∧
    ((∃ t ∈ sampleList, t.typeId = minTypeId sampleList) ∧
     (∃ t ∈ sampleList, t.typeId = maxTypeId sampleList) ∧
     ∀ t ∈ sampleList, minTypeId sampleList ≤ t.typeId ∧ t.typeId ≤ maxTypeId sampleList) :=
  ⟨List.cons_ne_nil _ _, limits_are_extrema sampleList (List.cons_ne_nil _ _)⟩

/-- C4 fails at the empty list: `typeIdRangeSize` of `List<>` is declared as 0,
while `maxTypeId - minTypeId + 1` evaluates in `size_t` to
`0 - (2^64 - 1) + 1 = 2`. -/
theorem typeIdRangeSize_nil_ne_formula :
    typeIdRangeSize [] = 0 ∧
    addSize (subSize (maxTypeId []) (minTypeId [])) 1 = 2 ∧
    typeIdRangeSize [] ≠ addSize (subSize (maxTypeId []) (minTypeId [])) 1 := by
  decide

/-- C4, amended: for every non-empty type list, `typeIdRangeSize` equals
`maxTypeId - minTypeId + 1` computed in `size_t` arithmetic, which is the
natural number `maxTypeId - minTypeId + 1` reduced modulo `2^64`; for the empty
list `typeIdRangeSize` is 0. -/
theorem typeIdRangeSize_eq_formula (l : TypeList) (h : l ≠ []) :
    typeIdRangeSize l = addSize (subSize (maxTypeId l) (minTypeId l)) 1 ∧
    typeIdRangeSize l = (maxTypeId l - minTypeId l + 1) % sizeModulus ∧
    typeIdRangeSize [] = 0 := by
  cases l with
  | nil => exact absurd rfl h
  | cons T Ts =>
    refine ⟨rfl, ?_, rfl⟩
    simp only [typeIdRangeSize]
    rw [subSize_of_le (minTypeId_le_maxTypeId h) (maxTypeId_lt_sizeModulus _)]
    rfl

/-- Witness of the amended C4 on `List<McGet, McSet, McDelete>` with
identifiers 3, 1, 7, whose range size is 7. -/
theorem typeIdRangeSize_eq_formula_witness :
    sampleList ≠ [] ∧
    (typeIdRangeSize sampleList =
        addSize (subSize (maxTypeId sampleList) (minTypeId sampleList)) 1 ∧
     typeIdRangeSize sampleList =
        (maxTypeId sampleList - minTypeId sampleList + 1) % sizeModulus ∧
     typeIdRangeSize [] = 0) :=
  ⟨List.cons_ne_nil _ _, typeIdRangeSize_eq_formula sampleList (List.cons_ne_nil _ _)⟩

end carbon

namespace carbon

/-! ## `getTypeIdByName` -/

/-- The function `getTypeIdByName` skips every leading element whose name differs. -/
theorem getTypeIdByName_append_of_forall_ne (name : String) (pre rest : TypeList)
    (h : ∀ U ∈ pre, U.name ≠ name) :
    getTypeIdByName name (pre ++ rest) = getTypeIdByName name rest := by
  induction pre with
  | nil => rfl
  | cons U Us ih =>
    have hU : ¬ name = U.name := fun e => h U (List.mem_cons_self U Us) e.symm
    simp only [List.cons_append, getTypeIdByName, if_neg hU]
    exact ih (fun V hV => h V (List.mem_cons_of_mem U hV))

/-- The function `getTypeIdByName` as a left-to-right search. -/
theorem getTypeIdByName_eq_find (name : String) (l : TypeList) :
    getTypeIdByName name l =
      ((l.find? (fun T => decide (name = T.name))).map RequestType.typeId).getD 0 := by
  induction l with
  | nil => rfl
  | cons T Ts ih =>
    by_cases hT : name = T.name
    · simp [getTypeIdByName, List.find?, hT]
    · simp only [getTypeIdByName, if_neg hT, List.find?, decide_eq_false hT]
      exact ih

/-- C5: for every name and type list, `getTypeIdByName` returns the `typeId`
of the first element in list order whose name equals the given name (the
element found by a left-to-right search; equivalently the element `T` of any
split `pre ++ T :: post` in which `T` has the name and no element of `pre`
has it), and 0 when no element has the name; when the names of the list are
pairwise distinct, it returns the `typeId` of whichever element carries the
name. -/
theorem getTypeIdByName_first_match (name : String) (l : TypeList) :
    getTypeIdByName name l =
      ((l.find? (fun T => decide (name = T.name))).map RequestType.typeId).getD 0 ∧
    (∀ (pre : TypeList) (T : RequestType) (post : TypeList),
      l = pre ++ T :: post → T.name = name → (∀ U ∈ pre, U.name ≠ name) →
      getTypeIdByName name l = T.typeId) ∧
    ((∀ T ∈ l, T.name ≠ name) → getTypeIdByName name l = 0) ∧
    ((l.map RequestType.name).Nodup → ∀ T ∈ l, T.name = name →
      getTypeIdByName name l = T.typeId) := by
  have hsplit : ∀ (pre : TypeList) (T : RequestType) (post : TypeList),
      l = pre ++ T :: post → T.name = name → (∀ U ∈ pre, U.name ≠ name) →
      getTypeIdByName name l = T.typeId := by
    intro pre T post hl hT hpre
    rw [hl, getTypeIdByName_append_of_forall_ne name pre _ hpre]
    simp only [getTypeIdByName, if_pos hT.symm]
  refine ⟨?_, hsplit, ?_, ?_⟩
  · exact getTypeIdByName_eq_find name l
  · intro hnone
    have := getTypeIdByName_append_of_forall_ne name l [] hnone
    simpa [getTypeIdByName] using this
  · intro hnodup T hT hname
    obtain ⟨pre, post, hl⟩ := List.append_of_mem hT
    refine hsplit pre T post hl hname ?_
    intro U hU hUname
    rw [hl, List.map_append, List.map_cons] at hnodup
    have hdisj := (List.nodup_append.mp hnodup).2.2
    have h1 : U.name ∈ pre.map RequestType.name := List.mem_map_of_mem _ hU
    have h2 : U.name ∈ T.name :: post.map RequestType.name := by
      rw [hUname, hname]; exact List.mem_cons_self _ _
    exact hdisj h1 h2

/-- Witness of C5. On `List<McGet, McSet, McGet>` with identifiers 3, 1, 9 the
name `McGet` resolves to the first match, 3, and an unknown name to 0. -/
theorem getTypeIdByName_first_match_witness :
    getTypeIdByName "McGet" duplicateNameList = 3 ∧
    getTypeIdByName "McTouch" duplicateNameList = 0 ∧
    getTypeIdByName "McSet" sampleList = 1 :=
  ⟨(getTypeIdByName_first_match "McGet" duplicateNameList).2.1 []
      ⟨"McGet", 3, by decide⟩ [⟨"McSet", 1, by decide⟩, ⟨"McGet", 9, by decide⟩]
      rfl rfl (by simp),
   (getTypeIdByName_first_match "McTouch" duplicateNameList).2.2.1
      (by simp [duplicateNameList]),
   (getTypeIdByName_first_match "McSet" sampleList).2.2.2
      (by simp [sampleList]) ⟨"McSet", 1, by decide⟩ (by simp [sampleList]) rfl⟩

end carbon

namespace carbon

/-! ## Range size and the number of distinct identifiers -/

/-- On every type list whose range size does not wrap, the range size is at
least the number of distinct identifiers. -/
theorem distinctTypeIds_le_typeIdRangeSize_of_no_wrap (l : TypeList)
    (hfit : maxTypeId l - minTypeId l + 1 < sizeModulus) :
    distinctTypeIds l ≤ typeIdRangeSize l := by
  by_cases hne : l = []
  · subst hne
    simp [distinctTypeIds, typeIds, typeIdRangeSize]
  · rw [typeIdRangeSize_of_no_wrap hne hfit]
    unfold distinctTypeIds
    have hsub : (typeIds l).dedup.toFinset ⊆ Finset.Icc (minTypeId l) (maxTypeId l) := by
      intro n hn
      rw [List.mem_toFinset, List.mem_dedup] at hn
      obtain ⟨t, ht, rfl⟩ := List.mem_map.mp hn
      exact Finset.mem_Icc.mpr ⟨minTypeId_le_of_mem ht, le_maxTypeId_of_mem ht⟩
    have hcard : (typeIds l).dedup.toFinset.card = (typeIds l).dedup.length :=
      List.toFinset_card_of_nodup (List.nodup_dedup _)
    have hle := Finset.card_le_card hsub
    rw [hcard, Nat.card_Icc] at hle
    have := minTypeId_le_maxTypeId hne
    omega

/-- C10, evaluated at the type list `List<A, B>` with `A::typeId = 0` and
`B::typeId = 2^64 - 1`: the list declares 2 distinct identifiers, while
`typeIdRangeSize = maxTypeId - minTypeId + 1` wraps around in `size_t` to 0,
so the range size is smaller than the number of distinct identifiers. -/
theorem typeIdRangeSize_fullSpanList_lt_distinct :
    typeIdRangeSize fullSpanList = 0 ∧ distinctTypeIds fullSpanList = 2 ∧
    ¬ (typeIdRangeSize fullSpanList ≥ distinctTypeIds fullSpanList) := by
  decide

end carbon

namespace mcrouter

open ExponentialSmoothData

/-! ## `ExponentialSmoothData` -/

theorem alpha_one : alpha 1 = 1 := by
  unfold alpha; norm_num

theorem alpha_pos (N : Nat) : 0 < alpha N := by
  unfold alpha; positivity

theorem alpha_lt_one {N : Nat} (hN : 1 < N) : alpha N < 1 := by
  unfold alpha
  have h2 : (2 : ℚ) < (N : ℚ) + 1 := by
    have : (2 : ℚ) ≤ (N : ℚ) := by exact_mod_cast hN
    linarith
  rw [div_lt_one (by linarith)]
  exact h2

/-- With window size 1 every sample replaces the whole state. -/
theorem insertSample_one_bucket (d : ExponentialSmoothData 1) (x : ℚ) :
    d.insertSample x = ⟨true, x⟩ := by
  unfold insertSample
  split
  · rw [alpha_one]; simp
  · rfl

theorem insertSamples_append {N : Nat} (d : ExponentialSmoothData N) (xs ys : List ℚ) :
    d.insertSamples (xs ++ ys) = (d.insertSamples xs).insertSamples ys := by
  simp [insertSamples, List.foldl_append]

theorem insertSamples_singleton {N : Nat} (d : ExponentialSmoothData N) (x : ℚ) :
    d.insertSamples [x] = d.insertSample x := rfl

theorem hasValue_insertSample {N : Nat} (d : ExponentialSmoothData N) (x : ℚ) :
    (d.insertSample x).hasValue = true := by
  unfold insertSample hasValue
  split <;> rfl

theorem hasValue_insertSamples_of_hasValue {N : Nat} (d : ExponentialSmoothData N)
    (h : d.hasValue = true) (xs : List ℚ) : (d.insertSamples xs).hasValue = true := by
  induction xs generalizing d with
  | nil => exact h
  | cons x xs ih => exact ih (d.insertSample x) (hasValue_insertSample d x)

/-- C6: for window size 1 and every non-empty sequence of samples, `value()`
after inserting the whole sequence into a fresh object equals the last
inserted sample. -/
theorem one_bucket_value_eq_last (xs : List ℚ) (h : xs ≠ []) :
    ((fresh 1).insertSamples xs).value = xs.getLast h := by
  have hx : xs = xs.dropLast ++ [xs.getLast h] := (List.dropLast_append_getLast h).symm
  have hstate : (fresh 1).insertSamples xs = ⟨true, xs.getLast h⟩ := by
    conv_lhs => rw [hx]
    rw [insertSamples_append, insertSamples_singleton, insertSample_one_bucket]
  rw [hstate]
  rfl

/-- Witness of C6, the unit test `one_bucket`: inserting 5 gives 5 and then
inserting 4 gives 4. -/
theorem one_bucket_value_eq_last_witness :
    ([5] : List ℚ) ≠ [] ∧ ([5, 4] : List ℚ) ≠ [] ∧
    ((fresh 1).insertSamples [5]).value = 5 ∧
    ((fresh 1).insertSamples [5, 4]).value = 4 :=
  ⟨List.cons_ne_nil _ _, List.cons_ne_nil _ _,
   one_bucket_value_eq_last [5] (List.cons_ne_nil _ _),
   one_bucket_value_eq_last [5, 4] (List.cons_ne_nil _ _)⟩

/-- The integer chosen by `roundHalfEven` is within one half of `a / b`. -/
theorem roundHalfEven_nearest (a : Int) (b : Nat) (hb : 0 < b) :
    2 * |roundHalfEven a b * (b : Int) - a| ≤ (b : Int) := by
  have hb0 : (0 : Int) < (b : Int) := by exact_mod_cast hb
  have hdiv : (b : Int) * (a / (b : Int)) + a % (b : Int) = a := Int.ediv_add_emod a b
  have hr0 : 0 ≤ a % (b : Int) := Int.emod_nonneg a hb0.ne.symm
  have hr1 : a % (b : Int) < (b : Int) := Int.emod_lt_of_pos a hb0
  have hlow : a / (b : Int) * (b : Int) - a = -(a % (b : Int)) := by linarith [mul_comm (b : Int) (a / (b : Int))]
  have hhigh : (a / (b : Int) + 1) * (b : Int) - a = (b : Int) - a % (b : Int) := by
    linarith [mul_comm (b : Int) (a / (b : Int)), add_mul (a / (b : Int)) 1 (b : Int)]
  unfold roundHalfEven
  simp only
  split_ifs with h1 h2 h3
  · rw [hlow, abs_neg, abs_of_nonneg hr0]; omega
  · rw [hhigh, abs_of_nonneg (by omega)]; omega
  · rw [hlow, abs_neg, abs_of_nonneg hr0]; omega
  · rw [hhigh, abs_of_nonneg (by omega)]; omega

/-- The rounding on sample values: integers of the unit tests are kept, `0.1`
becomes the nearest `double`, and the tie `2^53 + 1` goes to the even
significand. -/
theorem roundDouble_samples :
    roundDouble 10 = 10 ∧ roundDouble 20 = 20 ∧ roundDouble 1 = 1 ∧
    roundDouble (1 + 1 / 2 ^ 52) = 1 + 1 / 2 ^ 52 ∧
    roundDouble (1 / 10) = 3602879701896397 / 36028797018963968 ∧
    roundDouble (2 ^ 53 + 1) = 2 ^ 53 ∧ roundDouble (2 ^ 53 + 3) = 2 ^ 53 + 4 := by
  decide!

/-- C8: for every window size and every sequence of `insertSample` calls
applied to a fresh object, `hasValue()` is true if and only if the sequence is
non-empty: it is false on a fresh object, true after the first sample, and
stays true under every later sequence of samples. -/
theorem hasValue_iff_nonempty (N : Nat) (xs : List ℚ) :
    (((fresh N).insertSamples xs).hasValue = true ↔ xs ≠ []) ∧
    (fresh N).hasValue = false ∧
    (∀ (d : ExponentialSmoothData N) (x : ℚ), (d.insertSample x).hasValue = true) ∧
    (∀ (d : ExponentialSmoothData N) (x : ℚ) (ys : List ℚ),
      ((d.insertSample x).insertSamples ys).hasValue = true) := by
  refine ⟨?_, rfl, hasValue_insertSample, fun d x ys =>
    hasValue_insertSamples_of_hasValue _ (hasValue_insertSample d x) ys⟩
  cases xs with
  | nil => simp [insertSamples, fresh, hasValue]
  | cons x xs =>
    simp only [ne_eq, reduceCtorEq, not_false_eq_true, iff_true]
    exact hasValue_insertSamples_of_hasValue _ (hasValue_insertSample _ x) xs

/-- C9: for every window size, `value()` of a fresh object is 0, and for every
sample `x`, `value()` after the single call `insertSample(x)` on a fresh object
equals `x`, whatever the window size. -/
theorem value_fresh_and_first_sample (N : Nat) (x : ℚ) :
    (fresh N).value = 0 ∧ ((fresh N).insertSample x).value = x := by
  simp [fresh, insertSample, value]

end mcrouter

namespace carbon

/-! ## More on `RequestListLimits` and `RequestIdMap` -/

/-- The range size of a non-empty list is `max - min + 1` modulo `2^64`. -/
theorem typeIdRangeSize_eq_mod {l : TypeList} (h : l ≠ []) :
    typeIdRangeSize l = (maxTypeId l - minTypeId l + 1) % sizeModulus := by
  cases l with
  | nil => exact absurd rfl h
  | cons T Ts =>
    simp only [typeIdRangeSize]
    rw [subSize_of_le (minTypeId_le_maxTypeId h) (maxTypeId_lt_sizeModulus _)]
    rfl

/-- A map with at least one slot belongs to a list whose range size does not wrap. -/
theorem no_wrap_of_kSize_pos {l : TypeList} (h : 0 < kSize l) :
    maxTypeId l - minTypeId l + 1 < sizeModulus := by
  have hne : l ≠ [] := by
    rintro rfl
    simp [kSize, typeIdRangeSize] at h
  unfold kSize at h
  rw [typeIdRangeSize_eq_mod hne] at h
  have hmax := maxTypeId_lt_sizeModulus l
  by_contra hnot
  have heq : maxTypeId l - minTypeId l + 1 = sizeModulus := by omega
  rw [heq, Nat.mod_self] at h
  exact Nat.lt_irrefl 0 h

/-- The identifier of every member of the list passes the bounds check. -/
theorem typeId_in_range_of_mem {l : TypeList} {R : RequestType} (h : R ∈ l) :
    kMinId l ≤ R.typeId ∧ R.typeId ≤ kMaxId l :=
  ⟨minTypeId_le_of_mem h, le_maxTypeId_of_mem h⟩

/-- On every type list and for every member `R`, `getByRequestType<R>()` gives
the same result as `getById(R::typeId)`, and that result is not the
out-of-range error. -/
theorem getByRequestType_eq_getById {l : TypeList} {T : Type} (m : RequestIdMap l T)
    (R : RequestType) (h : R ∈ l) :
    m.getByRequestType R h = m.getById R.typeId ∧
    ¬ reportsOutOfRange (m.getById R.typeId) := by
  have hin := typeId_in_range_of_mem h
  have hget : m.getById R.typeId = m.elemAt (subSize R.typeId (kMinId l)) := by
    rw [getById_eq, if_pos hin]
  refine ⟨by rw [hget]; rfl, ?_⟩
  rintro ⟨a, b, c, hrep⟩
  rw [hget] at hrep
  unfold RequestIdMap.elemAt at hrep
  cases hc : m.container_[subSize R.typeId (kMinId l)]? <;> simp [hc] at hrep

/-- On every type list whose range size does not wrap, `getByRequestType<R>()`
returns an element for every member `R`. -/
theorem getByRequestType_ok_of_no_wrap {l : TypeList} {T : Type} (m : RequestIdMap l T)
    (hfit : maxTypeId l - minTypeId l + 1 < sizeModulus) (R : RequestType) (h : R ∈ l) :
    ∃ x, m.getByRequestType R h = .ok x ∧ m.getById R.typeId = .ok x := by
  have hin := typeId_in_range_of_mem h
  have hidx := index_lt_kSize_of_no_wrap hfit hin.1 hin.2
  have hlen : subSize R.typeId (kMinId l) < m.container_.length := by
    rw [m.size_eq]; exact hidx
  refine ⟨m.container_[subSize R.typeId (kMinId l)], ?_, ?_⟩
  · unfold RequestIdMap.getByRequestType RequestIdMap.elemAt
    simp [hlen]
  · rw [getById_eq, if_pos hin]
    unfold RequestIdMap.elemAt
    simp [hlen]

/-- What a successful `set` tells: the id passed the bounds check, the index
was inside the array, and the new array is the old one with that slot
replaced. -/
theorem set_ok_inv {l : TypeList} {T : Type} {m m2 : RequestIdMap l T} {id : Nat} {v : T}
    (hset : m.set id v = .ok m2) :
    (kMinId l ≤ id ∧ id ≤ kMaxId l) ∧ subSize id (kMinId l) < m.container_.length ∧
    m2.container_ = m.container_.set (subSize id (kMinId l)) v := by
  rw [set_eq] at hset
  by_cases hin : kMinId l ≤ id ∧ id ≤ kMaxId l
  · rw [if_pos hin] at hset
    by_cases hlen : subSize id (kMinId l) < m.container_.length
    · rw [if_pos hlen] at hset
      refine ⟨hin, hlen, ?_⟩
      injection hset with hm
      rw [← hm]
    · rw [if_neg hlen] at hset
      cases hset
  · rw [if_neg hin] at hset
    cases hset

/-- The two embeddings of `set` agree: the result of `set` is the outcome of
`setInPlace`, with the object after the call in the successful case. -/
theorem set_eq_of_setInPlace {l : TypeList} {T : Type} (m : RequestIdMap l T) (id : Nat)
    (v : T) :
    m.set id v =
      match m.setInPlace id v with
      | (.ok (), m2) => .ok m2
      | (.error e, _) => .error e := by
  rw [set_eq]
  unfold RequestIdMap.setInPlace
  by_cases hin : kMinId l ≤ id ∧ id ≤ kMaxId l
  · have hc : (decide (kMinId l ≤ id) && decide (id ≤ kMaxId l)) = true := by
      simp [hin.1, hin.2]
    rw [hc, if_pos hin, checkLogic_true]
    by_cases hlen : subSize id (kMinId l) < m.container_.length
    · simp only [if_pos hlen]
    · simp only [if_neg hlen]
  · have hc : (decide (kMinId l ≤ id) && decide (id ≤ kMaxId l)) = false := by
      rw [Bool.and_eq_false_iff]
      simp only [decide_eq_false_iff_not]
      tauto
    rw [hc, if_neg hin, checkLogic_false]

theorem fullSpanA_mem : fullSpanA ∈ fullSpanList := by
  simp [fullSpanA, fullSpanList]

theorem kSize_fullSpanList : kSize fullSpanList = 0 := by decide

end carbon

namespace carbon

/-- C11: for the empty type list, `minTypeId` is the maximum `size_t` value
`2^64 - 1`, `maxTypeId` is the minimum `size_t` value 0, and `typeIdRangeSize`
is 0. -/
theorem limits_of_empty_list :
    minTypeId [] = sizeMax ∧ sizeMax = 18446744073709551615 ∧
    maxTypeId [] = sizeMin ∧ sizeMin = 0 ∧
    typeIdRangeSize [] = 0 := by
  refine ⟨rfl, ?_, rfl, rfl, rfl⟩
  norm_num [sizeMax, sizeModulus]

/-- C12, evaluated at the type list `List<A, B>` with `A::typeId = 0` and
`B::typeId = 2^64 - 1`, whose `kSize` wraps around to 0: for every element
type and every map over this list, `getByRequestType<A>()` indexes
`container_[0]` past the end of the empty array and does not succeed;
`getById(A::typeId)` gives the same result, which is not the out-of-range
error. -/
theorem getByRequestType_fullSpanList_out_of_bounds :
    ∀ (T : Type) (m : RequestIdMap fullSpanList T),
      m.getByRequestType fullSpanA fullSpanA_mem = .error (.arrayOutOfBounds 0 0) ∧
      m.getById fullSpanA.typeId = .error (.arrayOutOfBounds 0 0) := by
  intro T m
  have hlen : m.container_.length = 0 := by rw [m.size_eq, kSize_fullSpanList]
  have hidx : subSize fullSpanA.typeId (kMinId fullSpanList) = 0 := by decide
  have hnone : m.container_[0]? = none := by
    rw [List.getElem?_eq_none_iff]; omega
  have hget : m.getByRequestType fullSpanA fullSpanA_mem = .error (.arrayOutOfBounds 0 0) := by
    unfold RequestIdMap.getByRequestType RequestIdMap.elemAt
    rw [hidx, hnone, kSize_fullSpanList]
  exact ⟨hget, by rw [← (getByRequestType_eq_getById m fullSpanA fullSpanA_mem).1]; exact hget⟩

/-- C13, evaluated at the type list `List<A, B>` with `A::typeId = 0` and
`B::typeId = 2^64 - 1`: the id 0 passes the bounds check `kMinId <= 0 <=
kMaxId`, its array index `0 - kMinId` is 0, and `kSize` is 0, so the index is
not below `kSize`; no id at all has an index below `kSize` there. -/
theorem index_fullSpanList_not_lt_kSize :
    (kMinId fullSpanList ≤ 0 ∧ 0 ≤ kMaxId fullSpanList) ∧
    subSize 0 (kMinId fullSpanList) = 0 ∧ kSize fullSpanList = 0 ∧
    ¬ (subSize 0 (kMinId fullSpanList) < kSize fullSpanList) ∧
    ∀ id : Nat, ¬ (subSize id (kMinId fullSpanList) < kSize fullSpanList) := by
  have hmin : kMinId fullSpanList = 0 := by decide
  have hsize : kSize fullSpanList = 0 := by decide
  have hidx : subSize 0 (kMinId fullSpanList) = 0 := by decide
  refine ⟨⟨by omega, by omega⟩, hidx, hsize, by omega, ?_⟩
  intro id
  omega

/-- Frame property of a `set` call that returned: for every type list, every
map `m`, every id and value `v` on which `set(id, v)` returns (giving the map
`m2`), and every other id `j ≠ id` that passes the bounds check, `getById(j)`
returns an element before the call and the same element after it; every slot
of the array other than the one at index `id - kMinId` is unchanged, and that
slot holds `v`. -/
theorem getById_after_set_of_ne (l : TypeList) (T : Type) (m m2 : RequestIdMap l T)
    (id j : Nat) (v : T) (hj : kMinId l ≤ j ∧ j ≤ kMaxId l) (hne : j ≠ id)
    (hset : m.set id v = .ok m2) :
    (∃ x, m.getById j = .ok x ∧ m2.getById j = .ok x) ∧
    (∀ i, i ≠ subSize id (kMinId l) → m2.container_[i]? = m.container_[i]?) ∧
    m2.container_[subSize id (kMinId l)]? = some v := by
  obtain ⟨hid, hlen, hcont⟩ := set_ok_inv hset
  have hpos : 0 < kSize l := by
    rw [← m.size_eq]; omega
  have hfit := no_wrap_of_kSize_pos hpos
  have hmax := maxTypeId_lt_sizeModulus l
  have hjlt : subSize j (kMinId l) < m.container_.length := by
    rw [m.size_eq]; exact index_lt_kSize_of_no_wrap hfit hj.1 hj.2
  have hidx : subSize j (kMinId l) ≠ subSize id (kMinId l) := by
    unfold kMinId kMaxId at *
    rw [subSize_of_le hj.1 (by omega), subSize_of_le hid.1 (by omega)]
    omega
  have hother : ∀ i, i ≠ subSize id (kMinId l) → m2.container_[i]? = m.container_[i]? := by
    intro i hi
    rw [hcont, List.getElem?_set_ne (Ne.symm hi)]
  refine ⟨⟨m.container_[subSize j (kMinId l)], ?_, ?_⟩, hother, ?_⟩
  · rw [getById_eq, if_pos hj]
    unfold RequestIdMap.elemAt
    simp [hjlt]
  · rw [getById_eq, if_pos hj]
    unfold RequestIdMap.elemAt
    rw [hother _ hidx]
    simp [hjlt]
  · rw [hcont]
    simp [hlen]

/-- The frame property on `List<McGet, McSet, McDelete>` with identifiers 3, 1,
7: on a value-initialised map of numbers, `set(3, 5)` returns, and `getById(7)`
returns the same element before and after it. -/
theorem getById_after_set_of_ne_witness :
    ∃ m2 : RequestIdMap sampleList Nat,
      (kMinId sampleList ≤ 7 ∧ 7 ≤ kMaxId sampleList) ∧ 7 ≠ 3 ∧
      (RequestIdMap.init sampleList Nat).set 3 5 = .ok m2 ∧
      ((∃ x, (RequestIdMap.init sampleList Nat).getById 7 = .ok x ∧ m2.getById 7 = .ok x) ∧
       (∀ i, i ≠ subSize 3 (kMinId sampleList) →
          m2.container_[i]? = (RequestIdMap.init sampleList Nat).container_[i]?) ∧
       m2.container_[subSize 3 (kMinId sampleList)]? = some 5) := by
  obtain ⟨m2, hset, _⟩ := set_getById_of_no_wrap (RequestIdMap.init sampleList Nat)
    (by decide) 3 5 (by decide) (by decide)
  exact ⟨m2, by decide, by decide, hset,
    getById_after_set_of_ne sampleList Nat _ m2 3 7 5 (by decide) (by decide) hset⟩

/-- On every type list whose range size does not wrap, `set` on an id that
passes the bounds check returns, and `getById` on every other id that passes
the check returns the same element before and after the call. -/
theorem getById_after_set_of_no_wrap {l : TypeList} {T : Type} (m : RequestIdMap l T)
    (hfit : maxTypeId l - minTypeId l + 1 < sizeModulus) (id j : Nat) (v : T)
    (hid : kMinId l ≤ id ∧ id ≤ kMaxId l) (hj : kMinId l ≤ j ∧ j ≤ kMaxId l)
    (hne : j ≠ id) :
    ∃ m2 x, m.set id v = .ok m2 ∧ m.getById j = .ok x ∧ m2.getById j = .ok x := by
  obtain ⟨m2, hset, _⟩ := set_getById_of_no_wrap m hfit id v hid.1 hid.2
  obtain ⟨⟨x, hx1, hx2⟩, _⟩ := getById_after_set_of_ne l T m m2 id j v hj hne hset
  exact ⟨m2, x, hset, hx1, hx2⟩

/-- C18, evaluated at the type list `List<A, B>` with `A::typeId = 0` and
`B::typeId = 2^64 - 1`, whose `kSize` wraps around to 0: the ids 0 and 1 both
pass the bounds check and differ, yet for every element type, every map over
this list and every value, `set(0, v)` indexes `container_[0]` past the end of
the empty array and returns no map, and `getById(1)` before the call indexes
`container_[1]` past the end and returns no element. -/
theorem getById_after_set_fullSpanList_out_of_bounds :
    (kMinId fullSpanList ≤ 0 ∧ 0 ≤ kMaxId fullSpanList) ∧
    (kMinId fullSpanList ≤ 1 ∧ 1 ≤ kMaxId fullSpanList) ∧ (1 : Nat) ≠ 0 ∧
    ∀ (T : Type) (m : RequestIdMap fullSpanList T) (v : T),
      m.set 0 v = .error (.arrayOutOfBounds 0 0) ∧
      m.getById 1 = .error (.arrayOutOfBounds 1 0) ∧
      (∀ m2 : RequestIdMap fullSpanList T, m.set 0 v ≠ .ok m2) ∧
      (∀ x : T, m.getById 1 ≠ .ok x) := by
  have hmin : kMinId fullSpanList = 0 := by decide
  have hmax : kMaxId fullSpanList = 18446744073709551615 := by
    simp [kMaxId, maxTypeId, fullSpanList, sizeMin]
  have hin0 : kMinId fullSpanList ≤ 0 ∧ 0 ≤ kMaxId fullSpanList := ⟨by omega, by omega⟩
  have hin1 : kMinId fullSpanList ≤ 1 ∧ 1 ≤ kMaxId fullSpanList := ⟨by omega, by omega⟩
  refine ⟨hin0, hin1, by decide, ?_⟩
  intro T m v
  have hlen : m.container_.length = 0 := by rw [m.size_eq, kSize_fullSpanList]
  have hidx0 : subSize 0 (kMinId fullSpanList) = 0 := by decide
  have hidx1 : subSize 1 (kMinId fullSpanList) = 1 := by decide
  have hnot : ¬ subSize 0 (kMinId fullSpanList) < m.container_.length := by omega
  have hset : m.set 0 v = .error (.arrayOutOfBounds 0 0) := by
    rw [set_eq, if_pos hin0, if_neg hnot, hidx0, kSize_fullSpanList]
  have hnone : m.container_[1]? = none := by
    rw [List.getElem?_eq_none_iff]; omega
  have hget : m.getById 1 = .error (.arrayOutOfBounds 1 0) := by
    rw [getById_eq, if_pos hin1, hidx1]
    unfold RequestIdMap.elemAt
    rw [hnone, kSize_fullSpanList]
  refine ⟨hset, hget, ?_, ?_⟩
  · intro m2 h2
    rw [hset] at h2
    cases h2
  · intro x h2
    rw [hget] at h2
    cases h2

/-- C19: for every type list, every map, every id outside `[kMinId, kMaxId]`
and every value, `set(id, v)` reports the out-of-range error carrying `id`,
`kMinId` and `kMaxId`, and the object after the call is the object before it:
no slot of `container_` is modified. -/
theorem set_out_of_range_unchanged (l : TypeList) (T : Type) (m : RequestIdMap l T)
    (id : Nat) (v : T) (h : id < kMinId l ∨ kMaxId l < id) :
    m.setInPlace id v = (.error (.outOfRange id (kMinId l) (kMaxId l)), m) ∧
    (m.setInPlace id v).2.container_ = m.container_ ∧
    m.set id v = .error (.outOfRange id (kMinId l) (kMaxId l)) := by
  have hin : ¬ (kMinId l ≤ id ∧ id ≤ kMaxId l) := by omega
  have hc : (decide (kMinId l ≤ id) && decide (id ≤ kMaxId l)) = false := by
    rw [Bool.and_eq_false_iff]
    simp only [decide_eq_false_iff_not]
    tauto
  have hstep : m.setInPlace id v = (.error (.outOfRange id (kMinId l) (kMaxId l)), m) := by
    unfold RequestIdMap.setInPlace
    rw [hc, checkLogic_false]
  refine ⟨hstep, by rw [hstep], ?_⟩
  rw [set_eq, if_neg hin]

/-- Witness of C19 on `List<McGet, McSet, McDelete>` with identifiers 3, 1, 7:
`set(8, 5)` on a default-constructed map of numbers. -/
theorem set_out_of_range_unchanged_witness :
    (8 < kMinId sampleList ∨ kMaxId sampleList < 8) ∧
    ((RequestIdMap.init sampleList Nat).setInPlace 8 5 =
        (.error (.outOfRange 8 (kMinId sampleList) (kMaxId sampleList)),
          RequestIdMap.init sampleList Nat) ∧
     ((RequestIdMap.init sampleList Nat).setInPlace 8 5).2.container_ =
        (RequestIdMap.init sampleList Nat).container_ ∧
     (RequestIdMap.init sampleList Nat).set 8 5 =
        .error (.outOfRange 8 (kMinId sampleList) (kMaxId sampleList))) :=
  ⟨by decide, set_out_of_range_unchanged sampleList Nat _ 8 5 (by decide)⟩

/-- C20: for every type list and every name, if `getTypeIdByName` returns a
non-zero value, then some element of the list has that name and that value
as its `typeId`; the empty list returns 0 for every name. -/
theorem getTypeIdByName_nonzero_mem (name : String) (l : TypeList)
    (h : getTypeIdByName name l ≠ 0) :
    (∃ T ∈ l, T.name = name ∧ T.typeId = getTypeIdByName name l) ∧
    ∀ n : String, getTypeIdByName n [] = 0 := by
  refine ⟨?_, fun _ => rfl⟩
  induction l with
  | nil => exact absurd rfl h
  | cons T Ts ih =>
    by_cases hT : name = T.name
    · refine ⟨T, List.mem_cons_self T Ts, hT.symm, ?_⟩
      simp only [getTypeIdByName, if_pos hT]
    · simp only [getTypeIdByName, if_neg hT] at h ⊢
      obtain ⟨U, hU, hname, hid⟩ := ih h
      exact ⟨U, List.mem_cons_of_mem T hU, hname, hid⟩

/-- Witness of C20 on `List<McGet, McSet, McDelete>` with identifiers 3, 1, 7
and the name `McDelete`, which resolves to 7. -/
theorem getTypeIdByName_nonzero_mem_witness :
    getTypeIdByName "McDelete" sampleList ≠ 0 ∧
    ((∃ T ∈ sampleList, T.name = "McDelete" ∧
        T.typeId = getTypeIdByName "McDelete" sampleList) ∧
     ∀ n : String, getTypeIdByName n [] = 0) :=
  ⟨by decide, getTypeIdByName_nonzero_mem "McDelete" sampleList (by decide)⟩

end carbon

namespace carbon

/-! ## Capability adapters -/

/-- C14: for every message of a type without a flags field (`hasFlags` false),
`getFlags` returns 0 whatever the other fields hold; for every message of a
type with a flags field (`hasFlags` true), `getFlags` returns the value held
by `flags()`. -/
theorem getFlags_by_capability (vk : ValueKind) (hasMessage : Bool) (Other : Type) :
    (∀ r : Message vk false hasMessage Other, getFlags r = 0) ∧
    (∀ r : Message vk true hasMessage Other, getFlags r = r.flags) :=
  ⟨fun _ => rfl, fun _ => rfl⟩

/-- C15: for every string `msg`: on every reply of a type with a message
field, `setMessageIfPresent(reply, msg)` leaves `reply.message()` equal to
`msg` and the payload, the flags and the remaining fields as they were; on
every reply of a type without a message field it leaves the reply unchanged.
Both overloads are total: there is no failing result. -/
theorem setMessageIfPresent_by_capability (vk : ValueKind) (hasFlags : Bool) (Other : Type)
    (msg : String) :
    (∀ reply : Message vk hasFlags true Other,
      (setMessageIfPresent reply msg).message = msg ∧
      (setMessageIfPresent reply msg).value_ = reply.value_ ∧
      (setMessageIfPresent reply msg).flags_ = reply.flags_ ∧
      (setMessageIfPresent reply msg).other = reply.other) ∧
    (∀ reply : Message vk hasFlags false Other, setMessageIfPresent reply msg = reply) :=
  ⟨fun _ => ⟨rfl, rfl, rfl, rfl⟩, fun _ => rfl⟩

/-- C16: for every message of a type without a payload (`hasValue` false),
`valuePtrUnsafe` returns the null pointer and `valueRangeSlow` returns the
empty byte range and leaves the message as it was; for every message of a
type with an optional payload that is unset, `valueRangeSlow` returns the
empty byte range as well (and `valuePtrUnsafe` the null pointer). The
functions are total: there is no failing result. -/
theorem value_absent_or_unset (hasFlags hasMessage : Bool) (Other : Type) :
    ValueKind.hasValue .absent = false ∧
    (∀ r : Message .absent hasFlags hasMessage Other,
      valuePtrUnsafe r = none ∧ valueRangeSlow r = ([], r)) ∧
    (∀ r : Message .optional hasFlags hasMessage Other, r.value_ = (none : Option IOBuf) →
      valueRangeSlow r = ([], r) ∧ valuePtrUnsafe r = none) := by
  refine ⟨rfl, fun _ => ⟨rfl, rfl⟩, ?_⟩
  intro r hr
  constructor
  · show (match detail.bufPtrOptional r.value_ with
      | some buf => ((buf.coalesce).1, { r with value_ := some (buf.coalesce).2 })
      | none => ([], r)) = ([], r)
    rw [hr]
    rfl
  · show detail.bufPtrOptional r.value_ = none
    rw [hr]
    rfl

/-- Witness of C16: a request whose optional payload is unset. -/
theorem value_absent_or_unset_witness :
    sampleUnsetRequest.value_ = (none : Option IOBuf) ∧
    valueRangeSlow sampleUnsetRequest = ([], sampleUnsetRequest) ∧
    valuePtrUnsafe sampleUnsetRequest = none ∧
    valuePtrUnsafe sampleBareRequest = none ∧
    valueRangeSlow sampleBareRequest = ([], sampleBareRequest) :=
  ⟨rfl,
   ((value_absent_or_unset false false String).2.2 sampleUnsetRequest rfl).1,
   ((value_absent_or_unset false false String).2.2 sampleUnsetRequest rfl).2,
   ((value_absent_or_unset false false String).2.1 sampleBareRequest).1,
   ((value_absent_or_unset false false String).2.1 sampleBareRequest).2⟩

end carbon

namespace mcrouter

open ExponentialSmoothData

/-! ## Decay toward a constant stream -/

/-- On an initialized object, `k` insertions of `c` move the estimate to
`c + (1 - α)^k * (estimate - c)`. -/
theorem insertSamples_replicate {N : Nat} (e c : ℚ) (k : Nat) :
    (⟨true, e⟩ : ExponentialSmoothData N).insertSamples (List.replicate k c) =
      ⟨true, c + (1 - alpha N) ^ k * (e - c)⟩ := by
  induction k generalizing e with
  | zero => simp [insertSamples]
  | succ k ih =>
    have hstep : (⟨true, e⟩ : ExponentialSmoothData N).insertSample c =
        ⟨true, alpha N * c + (1 - alpha N) * e⟩ := by
      simp [insertSample]
    have hcons : (⟨true, e⟩ : ExponentialSmoothData N).insertSamples (List.replicate (k + 1) c) =
        ((⟨true, e⟩ : ExponentialSmoothData N).insertSample c).insertSamples
          (List.replicate k c) := by
      simp [insertSamples, List.replicate_succ]
    rw [hcons, hstep, ih]
    congr 1
    ring

/-- Closed form of the estimate after `s0` and `k` insertions of `c`. -/
theorem valueAfterConstant_eq (N : Nat) (s0 c : ℚ) (k : Nat) :
    valueAfterConstant N s0 c k = c + (1 - alpha N) ^ k * (s0 - c) := by
  unfold valueAfterConstant
  have h0 : (fresh N).insertSample s0 = ⟨true, s0⟩ := by
    simp [fresh, insertSample]
  rw [h0, insertSamples_replicate]
  simp [value]

/-- C17: for every window size `N > 1`, every constant `c` and every initial
sample `s0 ≠ c`, with `v_k` the value after `insertSample(s0)` and `k`
insertions of `c` (exact arithmetic): every `v_k` is on the same side of `c`
as `s0`, the distance `|v_k - c|` is strictly decreasing in `k`, and `v_k`
converges to `c`: for every `ε > 0` the distance is below `ε` from some `K`
on. -/
theorem constant_stream_converges (N : Nat) (hN : 1 < N) (s0 c : ℚ) (h : s0 ≠ c) :
    valueAfterConstant N s0 c 0 = s0 ∧
    (∀ k, (s0 < c → valueAfterConstant N s0 c k < c) ∧
          (c < s0 → c < valueAfterConstant N s0 c k)) ∧
    (∀ k, |valueAfterConstant N s0 c (k + 1) - c| < |valueAfterConstant N s0 c k - c|) ∧
    (∀ ε : ℚ, 0 < ε → ∃ K, ∀ k, K ≤ k → |valueAfterConstant N s0 c k - c| < ε) := by
  have hr0 : 0 < 1 - alpha N := sub_pos.mpr (alpha_lt_one hN)
  have hr1 : 1 - alpha N < 1 := by linarith [alpha_pos N]
  have hd : 0 < |s0 - c| := abs_pos.mpr (sub_ne_zero.mpr h)
  have hdist : ∀ k, |valueAfterConstant N s0 c k - c| = (1 - alpha N) ^ k * |s0 - c| := by
    intro k
    rw [valueAfterConstant_eq, add_sub_cancel_left, abs_mul, abs_of_pos (pow_pos hr0 k)]
  refine ⟨?_, ?_, ?_, ?_⟩
  · rw [valueAfterConstant_eq]; ring
  · intro k
    have hpk := pow_pos hr0 k
    rw [valueAfterConstant_eq]
    constructor
    · intro hlt
      have : (1 - alpha N) ^ k * (s0 - c) < 0 := mul_neg_of_pos_of_neg hpk (sub_neg.mpr hlt)
      linarith
    · intro hgt
      have : 0 < (1 - alpha N) ^ k * (s0 - c) := mul_pos hpk (sub_pos.mpr hgt)
      linarith
  · intro k
    rw [hdist, hdist, pow_succ]
    have hpk := pow_pos hr0 k
    have hlt : (1 - alpha N) ^ k * (1 - alpha N) < (1 - alpha N) ^ k := by
      nlinarith
    exact mul_lt_mul_of_pos_right hlt hd
  · intro ε hε
    obtain ⟨K, hK⟩ := exists_pow_lt_of_lt_one (div_pos hε hd) hr1
    refine ⟨K, fun k hk => ?_⟩
    rw [hdist]
    have hle : (1 - alpha N) ^ k ≤ (1 - alpha N) ^ K :=
      pow_le_pow_of_le_one hr0.le hr1.le hk
    calc (1 - alpha N) ^ k * |s0 - c| ≤ (1 - alpha N) ^ K * |s0 - c| :=
          mul_le_mul_of_nonneg_right hle hd.le
      _ < ε / |s0 - c| * |s0 - c| := mul_lt_mul_of_pos_right hK hd
      _ = ε := div_mul_cancel₀ ε hd.ne.symm

/-- Witness of C17 with the numbers of the unit test `sanity`: window size 16,
initial sample 10, then the constant 20. -/
theorem constant_stream_converges_witness :
    1 < 16 ∧ (10 : ℚ) ≠ 20 ∧
    (valueAfterConstant 16 10 20 0 = 10 ∧
     (∀ k, ((10 : ℚ) < 20 → valueAfterConstant 16 10 20 k < 20) ∧
           ((20 : ℚ) < 10 → 20 < valueAfterConstant 16 10 20 k)) ∧
     (∀ k, |valueAfterConstant 16 10 20 (k + 1) - 20| < |valueAfterConstant 16 10 20 k - 20|) ∧
     (∀ ε : ℚ, 0 < ε → ∃ K, ∀ k, K ≤ k → |valueAfterConstant 16 10 20 k - 20| < ε)) :=
  ⟨by decide, by norm_num, constant_stream_converges 16 (by decide) 10 20 (by norm_num)⟩

end mcrouter
